import Mathlib

/-!
Verification development for the inner-loop optimisation engine of cca_zoo
(`src/cca_zoo/models/innerloop.py`).

The Python code is shallowly embedded: 1-d numpy arrays become real vectors
`Fin n → ℝ`, matrices become `Fin n → Fin p → ℝ`, exact real arithmetic
replaces floating point, raised exceptions become `Except.error`, and loops
become fuel-bounded recursion (every loop in the source has an explicit
iteration cap).  Each definition mirrors the lines of the source cited in its
doc comment.
-/

open Finset

/-- A 1-d numpy array of length `n`: a real vector. -/
abbrev Vec (n : ℕ) := Fin n → ℝ

/-- Sum of squares of the entries (the square of the Euclidean norm). -/
def sumSq {n : ℕ} (v : Vec n) : ℝ := ∑ i, v i ^ 2

/-- `np.linalg.norm(v)` / `np.linalg.norm(v, 2)`: the Euclidean norm. -/
noncomputable def l2norm {n : ℕ} (v : Vec n) : ℝ := Real.sqrt (sumSq v)

/-- `np.linalg.norm(v, 1)`: the sum of absolute values of the entries. -/
def l1norm {n : ℕ} (v : Vec n) : ℝ := ∑ i, |v i|

theorem sumSq_nonneg {n : ℕ} (v : Vec n) : 0 ≤ sumSq v :=
  Finset.sum_nonneg fun i _ => sq_nonneg (v i)

theorem l2norm_nonneg {n : ℕ} (v : Vec n) : 0 ≤ l2norm v := Real.sqrt_nonneg _

theorem l1norm_nonneg {n : ℕ} (v : Vec n) : 0 ≤ l1norm v :=
  Finset.sum_nonneg fun i _ => abs_nonneg (v i)

theorem sumSq_eq_zero_iff {n : ℕ} (v : Vec n) : sumSq v = 0 ↔ v = 0 := by
  constructor
  · intro h
    funext i
    have := (Finset.sum_eq_zero_iff_of_nonneg
      (fun j _ => sq_nonneg (v j))).mp h i (Finset.mem_univ i)
    exact pow_eq_zero_iff (n := 2) (by norm_num) |>.mp this
  · intro h
    subst h
    simp [sumSq]

theorem l2norm_eq_zero_iff {n : ℕ} (v : Vec n) : l2norm v = 0 ↔ v = 0 := by
  rw [l2norm, Real.sqrt_eq_zero (sumSq_nonneg v), sumSq_eq_zero_iff]

theorem l2norm_pos_iff {n : ℕ} (v : Vec n) : 0 < l2norm v ↔ v ≠ 0 := by
  rw [l2norm, Real.sqrt_pos]
  constructor
  · intro h hv
    rw [← sumSq_eq_zero_iff] at hv
    exact absurd hv (ne_of_gt h)
  · intro hv
    rcases lt_or_eq_of_le (sumSq_nonneg v) with h | h
    · exact h
    · exact absurd ((sumSq_eq_zero_iff v).mp h.symm) hv

theorem l2norm_smul {n : ℕ} (a : ℝ) (v : Vec n) :
    l2norm (a • v) = |a| * l2norm v := by
  unfold l2norm sumSq
  have h : ∑ i, (a • v) i ^ 2 = a ^ 2 * ∑ i, v i ^ 2 := by
    rw [Finset.mul_sum]
    refine Finset.sum_congr rfl fun i _ => ?_
    simp [mul_pow]
  rw [h, Real.sqrt_mul (sq_nonneg a), Real.sqrt_sq_eq_abs]

theorem l1norm_smul {n : ℕ} (a : ℝ) (v : Vec n) :
    l1norm (a • v) = |a| * l1norm v := by
  unfold l1norm
  rw [Finset.mul_sum]
  refine Finset.sum_congr rfl fun i _ => ?_
  simp [abs_mul]

theorem l2norm_normalize {n : ℕ} (v : Vec n) (hv : v ≠ 0) :
    l2norm ((l2norm v)⁻¹ • v) = 1 := by
  have hpos : 0 < l2norm v := (l2norm_pos_iff v).mpr hv
  rw [l2norm_smul, abs_of_nonneg (inv_nonneg.mpr hpos.le), inv_mul_cancel₀ hpos.ne']

/-! ### `_InnerLoop.fit`: the phase before `initialize()` (lines 45-54)

`fit` stores the views, then: if more than 2 views were passed it sets
`self.generalized = True` and emits a warning; then it calls `check_params()`
(which for the base class and `PLSInnerLoop` raises nothing) and only then
`initialize()`.  The result `(generalized, warned)` records the flag as used
for the rest of the fit and whether the warning was emitted; a raised
exception would be `Except.error`.  Notably there is no check of any kind
against fewer than 2 views. -/
def innerLoopFitValidate (numViews : ℕ) (generalized : Bool) :
    Except String (Bool × Bool) :=
  if 2 < numViews then Except.ok (true, true) else Except.ok (generalized, false)

/-- Claim C1 counterexample: a `fit` call with a single view is not rejected:
the whole pre-initialization phase of `_InnerLoop.fit` completes successfully
(flags untouched, no warning), so no error is raised before initialization or
iteration, contrary to the claim. -/
theorem C1_counterexample_single_view_accepted :
    innerLoopFitValidate 1 false = Except.ok (false, false) := rfl

/-- Claim C1 (amended): `fit` performs no view-count rejection at all: for
every number of views — in particular for fewer than 2 — the validation phase
of `_InnerLoop.fit` before `initialize()` raises no error.  (Only more than 2
views triggers any special handling: forcing `generalized := true` with a
warning.) -/
theorem C1_fit_never_rejects_view_count (numViews : ℕ) (generalized : Bool) :
    (innerLoopFitValidate numViews generalized).isOk = true := by
  unfold innerLoopFitValidate
  split <;> rfl

/-- Claim C7: a `fit` call with more than 2 views on a strategy configured with
`generalized = False` proceeds without raising, operates with
`generalized = True` from the start of the fit, and emits an observable
warning. -/
theorem C7_many_views_forces_generalized (numViews : ℕ) (generalized : Bool)
    (h : 2 < numViews) :
    innerLoopFitValidate numViews generalized = Except.ok (true, true) := by
  unfold innerLoopFitValidate
  rw [if_pos h]

theorem C7_witness :
    2 < 3 ∧ innerLoopFitValidate 3 false = Except.ok (true, true) :=
  ⟨by decide, C7_many_views_forces_generalized 3 false (by decide)⟩

/-! ### `_soft_threshold` (lines 457-466)

`diff = abs(x) - threshold; diff[diff < 0] = 0; out = np.sign(x) * diff`.
The function accepts a `positive` keyword (and both `_delta_search` and
`PMDInnerLoop` thread their per-view `positive` flag into it), but the body
never reads it. -/

/-- `np.sign` on a real scalar. -/
noncomputable def sgnR (a : ℝ) : ℝ := if 0 < a then 1 else if a < 0 then -1 else 0

/-- `_soft_threshold(x, threshold, positive=False)`: elementwise
`sign(x) * max(|x| - threshold, 0)`.  The `positive` argument is accepted but
unused, exactly as in the source. -/
noncomputable def softThreshold {n : ℕ} (x : Vec n) (threshold : ℝ)
    ( positive : Bool) : Vec n :=
  fun i => sgnR (x i) * max (|x i| - threshold) 0

/-- Claim C4 (code bug): `_soft_threshold` ignores its `positive` flag.  On
`x = [-5]`, `t = 1`, `positive = True` the code returns `[-4]`, which has a
negative component, while the claim requires every component of the
`positive = True` output to be non-negative. -/
theorem C4_positive_flag_ignored :
    softThreshold (fun _ : Fin 1 => (-5 : ℝ)) 1 true = fun _ => -4 := by
  funext i
  unfold softThreshold sgnR
  norm_num

/-! ### `ElasticInnerLoop.update_view`: the regression target (lines 250-253)

`if self.generalized: target = self.scores.mean(axis=0)` — the numpy mean over
ALL views, the updated view's own score included; `else: target =
self.scores[view_index - 1]`, where Python's negative indexing makes view 0
pair with the last view. -/
noncomputable def elasticTarget {m nsamples : ℕ} (generalized : Bool)
    (scores : Fin m → Vec nsamples) (i : Fin m) : Vec nsamples :=
  if generalized then (fun k => (∑ j, scores j k) / m)
  else scores ⟨(i.val + (m - 1)) % m, Nat.mod_lt _ i.pos⟩

/-- The target as the claim words it: the mean of all OTHER views' current
scores, excluding view `i`'s own score. -/
noncomputable def specOtherViewsMean {m nsamples : ℕ}
    (scores : Fin m → Vec nsamples) (i : Fin m) : Vec nsamples :=
  fun k => (∑ j ∈ Finset.univ.erase i, scores j k) / (m - 1)

/-- The mean of ALL views' current scores (what `scores.mean(axis=0)`
computes). -/
noncomputable def allViewsMean {m nsamples : ℕ}
    (scores : Fin m → Vec nsamples) : Vec nsamples :=
  fun k => (∑ j, scores j k) / m

/-- The deflation partner used in non-generalized mode for two views. -/
def partner : Fin 2 → Fin 2 := fun j => ⟨1 - j.val, by omega⟩

/-- Claim C3 counterexample: two views with current scores `s₀ = (2)`,
`s₁ = (0)`; in generalized mode the code's target for view 0 is the all-views
mean `(1)`, not the other-views mean `(0)` demanded by the claim. -/
theorem C3_counterexample :
    elasticTarget true (![fun _ => 2, fun _ => 0] : Fin 2 → Vec 1) 0 ≠
      specOtherViewsMean (![fun _ => 2, fun _ => 0] : Fin 2 → Vec 1) 0 := by
  intro h
  have h0 := congrFun h 0
  have herase : (Finset.univ.erase (0 : Fin 2)) = {1} := by decide
  simp only [elasticTarget, specOtherViewsMean, if_pos, herase,
    Finset.sum_singleton, Fin.sum_univ_two] at h0
  norm_num at h0

/-- Claim C3 (amended): in generalized mode the elastic-net regression target
for view `i` is the mean of ALL views' current scores, view `i`'s own score
included; in non-generalized mode it is `scores[(i - 1) mod m]`, which for two
views is the single deflation partner's score. -/
theorem C3_elastic_target (m nsamples : ℕ) (scores : Fin m → Vec nsamples)
    (i : Fin m) :
    elasticTarget true scores i = allViewsMean scores ∧
    ∀ (s2 : Fin 2 → Vec nsamples) (j : Fin 2),
      elasticTarget false s2 j = s2 (partner j) := by
  constructor
  · rfl
  · intro s2 j
    have : (⟨(j.val + (2 - 1)) % 2, Nat.mod_lt _ j.pos⟩ : Fin 2) = partner j := by
      fin_cases j <;> rfl
    simp only [elasticTarget, if_neg Bool.false_ne_true, this]

/-! ### `PMDInnerLoop.check_params` (lines 135-146)

`self.c = _process_parameter('c', self.c, 1, len(self.views))`; then raise
`ValueError` if any `c < 1`; then raise `ValueError` if any
`c > sqrt(view.shape[1])`; then process the `positive` flags.
`_process_parameter` lives in `cca_zoo.utils.check_values`, which is not part
of the staged sources, so it is modelled from the spec below.  In `fit`,
`check_params()` runs strictly before `initialize()` and before the iteration
loop, so an error here aborts the fit with no weights initialized. -/

/-- A hyperparameter as passed by the caller: `None`, a scalar, or a
per-view list. -/
inductive ParamArg where
  | null : ParamArg
  | scalar (q : ℚ) : ParamArg
  | list (l : List ℚ) : ParamArg

/-- A boolean hyperparameter as passed by the caller. -/
inductive ParamArgB where
  | null : ParamArgB
  | scalar (b : Bool) : ParamArgB
  | list (l : List Bool) : ParamArgB

/-- Modelled from the spec: `_process_parameter` (from
`cca_zoo.utils.check_values`, not among the staged sources) "expands a
scalar/list/None hyperparameter into a per-view list, validating length and
value ranges": `None` becomes the default broadcast to every view, a scalar is
broadcast to every view, and a list must already have one entry per view. -/
def processParameter (arg : ParamArg) (deflt : ℚ) (numViews : ℕ) :
    Except String (List ℚ) :=
  match arg with
  | .null => Except.ok (List.replicate numViews deflt)
  | .scalar q => Except.ok (List.replicate numViews q)
  | .list l =>
      if l.length = numViews then Except.ok l
      else Except.error "Parameter length does not match number of views"

/-- Modelled from the spec: `_process_parameter` for a boolean hyperparameter
(the `positive` flags), same expansion rules. -/
def processParameterB (arg : ParamArgB) (deflt : Bool) (numViews : ℕ) :
    Except String (List Bool) :=
  match arg with
  | .null => Except.ok (List.replicate numViews deflt)
  | .scalar b => Except.ok (List.replicate numViews b)
  | .list l =>
      if l.length = numViews then Except.ok l
      else Except.error "Parameter length does not match number of views"

/-- `PMDInnerLoop.check_params`.  `featureCounts` lists `view.shape[1]` per
view.  The source's second test is `c > np.sqrt(shape)`; it is reached only
when every `c ≥ 1` (the first test raised otherwise), and for `c ≥ 1 ≥ 0` the
comparison `c > sqrt(p)` is equivalent to `c * c > p`, which is how it is
written here to stay within exact rational arithmetic. -/
def pmdCheckParams (c : ParamArg) (pos : ParamArgB) (featureCounts : List ℕ) :
    Except String (List ℚ × List Bool) :=
  match processParameter c 1 featureCounts.length with
  | Except.error e => Except.error e
  | Except.ok cs =>
    if cs.any (fun q => q < 1) then
      Except.error "All regulariation parameters should be at least 1."
    else
      if (cs.zip featureCounts).any (fun cp => (cp.2 : ℚ) < cp.1 * cp.1) then
        Except.error "All regulariation parameters should be less than the square root of number of the respective view."
      else
        match processParameterB pos false featureCounts.length with
        | Except.error e => Except.error e
        | Except.ok ps => Except.ok (cs, ps)

/-- `PMDInnerLoop` fit up to the end of parameter validation: the view-count
step of `_InnerLoop.fit` (never an error) followed by `check_params`; an
error here occurs before `initialize()` and before any iteration. -/
def pmdFitValidate (c : ParamArg) (pos : ParamArgB) (featureCounts : List ℕ)
    (generalized : Bool) : Except String (Bool × Bool × List ℚ × List Bool) :=
  let g := if 2 < featureCounts.length then (true, true) else (generalized, false)
  match pmdCheckParams c pos featureCounts with
  | Except.error e => Except.error e
  | Except.ok (cs, ps) => Except.ok (g.1, g.2, cs, ps)

theorem pmdCheckParams_error_of_bad (c : ParamArg) (pos : ParamArgB)
    (featureCounts : List ℕ) (cs : List ℚ)
    (hc : processParameter c 1 featureCounts.length = Except.ok cs)
    (hbad : (∃ q ∈ cs, q < 1) ∨
      ∃ pr ∈ cs.zip featureCounts, (pr.2 : ℚ) < pr.1 * pr.1) :
    ∃ msg, pmdCheckParams c pos featureCounts = Except.error msg := by
  unfold pmdCheckParams
  rw [hc]
  dsimp only
  by_cases h1 : cs.any (fun q => q < 1)
  · rw [if_pos h1]
    exact ⟨_, rfl⟩
  · have h1' : ¬ ∃ q ∈ cs, q < 1 := by
      intro ⟨q, hq, hlt⟩
      exact h1 (List.any_eq_true.mpr ⟨q, hq, decide_eq_true hlt⟩)
    have h2 : (cs.zip featureCounts).any (fun cp => (cp.2 : ℚ) < cp.1 * cp.1) := by
      rcases hbad with hb | ⟨pr, hpr, hlt⟩
      · exact absurd hb h1'
      · exact List.any_eq_true.mpr ⟨pr, hpr, decide_eq_true hlt⟩
    rw [if_neg (by simp [h1]), if_pos h2]
    exact ⟨_, rfl⟩

/-- Claim C5: a cardinality-constrained (PMD) fit whose processed `c` has some
entry below 1, or above the square root of the corresponding view's feature
count, fails with a configuration error during parameter validation — before
any weight initialization or iteration (validation is the first thing `fit`
does after storing the views). -/
theorem C5_pmd_rejects_bad_c (c : ParamArg) (pos : ParamArgB)
    (featureCounts : List ℕ) (generalized : Bool) (cs : List ℚ)
    (hc : processParameter c 1 featureCounts.length = Except.ok cs)
    (hbad : (∃ q ∈ cs, q < 1) ∨
      ∃ pr ∈ cs.zip featureCounts, (pr.2 : ℚ) < pr.1 * pr.1) :
    ∃ msg, pmdFitValidate c pos featureCounts generalized = Except.error msg := by
  obtain ⟨msg, hmsg⟩ := pmdCheckParams_error_of_bad c pos featureCounts cs hc hbad
  refine ⟨msg, ?_⟩
  unfold pmdFitValidate
  rw [hmsg]

/-- Claim C5 witness: `c = 0.5` broadcast over a 2-view input (5 and 4
features) is rejected during validation. -/
theorem C5_witness :
    processParameter (ParamArg.scalar (1/2)) 1 [5, 4].length =
      Except.ok [1/2, 1/2] ∧
    ((∃ q ∈ [(1:ℚ)/2, 1/2], q < 1) ∨
      ∃ pr ∈ [(1:ℚ)/2, 1/2].zip [5, 4], (pr.2 : ℚ) < pr.1 * pr.1) ∧
    ∃ msg, pmdFitValidate (ParamArg.scalar (1/2)) ParamArgB.null [5, 4] false =
      Except.error msg :=
  ⟨rfl, Or.inl ⟨1/2, by norm_num⟩,
    C5_pmd_rejects_bad_c (ParamArg.scalar (1/2)) ParamArgB.null [5, 4] false
      [1/2, 1/2] rfl (Or.inl ⟨1/2, by norm_num⟩)⟩

/-! ### `ADMMInnerLoop.prox_lam_g` (lines 369-374)

`norm = np.linalg.norm(x); if norm < 1: return x; else: return x / max(1, norm)`. -/
noncomputable def prox_lam_g {n : ℕ} (x : Vec n) : Vec n :=
  if l2norm x < 1 then x else (max 1 (l2norm x))⁻¹ • x

/-- The projection onto the unit L2 ball as the claim words it: the identity
when `‖x‖ ≤ 1`, and `x / ‖x‖` otherwise. -/
noncomputable def specUnitBallProj {n : ℕ} (x : Vec n) : Vec n :=
  if l2norm x ≤ 1 then x else (l2norm x)⁻¹ • x

theorem prox_lam_g_eq_proj {n : ℕ} (x : Vec n) :
    prox_lam_g x = specUnitBallProj x := by
  unfold prox_lam_g specUnitBallProj
  rcases lt_trichotomy (l2norm x) 1 with h | h | h
  · rw [if_pos h, if_pos h.le]
  · rw [if_neg (by rw [h]; exact lt_irrefl 1), if_pos h.le, h]
    simp
  · rw [if_neg (not_lt.mpr h.le), if_neg (not_le.mpr h),
      max_eq_right h.le]

/-- Claim C9: `prox_lam_g` projects onto the unit L2 ball — it is the identity
when `‖x‖₂ ≤ 1` and `x/‖x‖₂` otherwise — and it is idempotent:
`prox_lam_g (prox_lam_g x) = prox_lam_g x` for every vector `x`. -/
theorem C9_prox_lam_g_proj_idempotent (n : ℕ) (x : Vec n) :
    prox_lam_g x = specUnitBallProj x ∧
    prox_lam_g (prox_lam_g x) = prox_lam_g x := by
  refine ⟨prox_lam_g_eq_proj x, ?_⟩
  rw [prox_lam_g_eq_proj x]
  unfold specUnitBallProj
  by_cases h : l2norm x ≤ 1
  · rw [if_pos h, prox_lam_g_eq_proj, specUnitBallProj, if_pos h]
  · rw [if_neg h]
    have hx : x ≠ 0 := by
      intro hx0
      subst hx0
      apply h
      rw [(l2norm_eq_zero_iff (0 : Vec n)).mpr rfl]
      norm_num
    have hunit : l2norm ((l2norm x)⁻¹ • x) = 1 := l2norm_normalize x hx
    rw [prox_lam_g_eq_proj, specUnitBallProj, if_pos hunit.le]

/-! ### Matrix-vector operations

Views are `N × p` observation matrices (`rows = samples`); `matVec` is
`view @ w` and `matTvec` is `view.T @ t`. -/

/-- `X @ v` for an `N × p` matrix `X`. -/
def matVec {N p : ℕ} (X : Fin N → Fin p → ℝ) (v : Vec p) : Vec N :=
  fun k => ∑ j, X k j * v j

/-- `X.T @ u` for an `N × p` matrix `X`. -/
def matTvec {N p : ℕ} (X : Fin N → Fin p → ℝ) (u : Vec N) : Vec p :=
  fun j => ∑ k, X k j * u k

theorem matVec_smul {N p : ℕ} (X : Fin N → Fin p → ℝ) (a : ℝ) (v : Vec p) :
    matVec X (a • v) = a • matVec X v := by
  funext k
  unfold matVec
  rw [Pi.smul_apply, smul_eq_mul, Finset.mul_sum]
  refine Finset.sum_congr rfl fun j _ => ?_
  simp [mul_comm, mul_left_comm]

/-! ### `PLSInnerLoop.update_view` (lines 102-116)

`targets = np.ma.array(self.scores, mask=False); targets.mask[view_index] =
True` — the masked array sums all views except `view_index`.  Then
`weights[i] = views[i].T @ targets.sum(axis=0)`, `weights[i] /= ‖weights[i]‖`,
`scores[i] = views[i] @ weights[i]`. -/

/-- The masked-array idiom: the elementwise sum of all views' scores except
view `i`'s. -/
def sumOthers {m N : ℕ} (scores : Fin m → Vec N) (i : Fin m) : Vec N :=
  fun k => ∑ j ∈ Finset.univ.erase i, scores j k

/-- The raw (un-normalized) PLS weight for view `i`: `views[i].T @ target`. -/
def plsRawWeight {m N p : ℕ} (X : Fin N → Fin p → ℝ) (scores : Fin m → Vec N)
    (i : Fin m) : Vec p :=
  matTvec X (sumOthers scores i)

/-- The PLS weight after the in-place normalization
`weights[i] /= np.linalg.norm(weights[i])`. -/
noncomputable def plsWeight {m N p : ℕ} (X : Fin N → Fin p → ℝ)
    (scores : Fin m → Vec N) (i : Fin m) : Vec p :=
  (l2norm (plsRawWeight X scores i))⁻¹ • plsRawWeight X scores i

/-- The score recomputed at the end of the update:
`scores[i] = views[i] @ weights[i]`. -/
noncomputable def plsScore {m N p : ℕ} (X : Fin N → Fin p → ℝ)
    (scores : Fin m → Vec N) (i : Fin m) : Vec N :=
  matVec X (plsWeight X scores i)

/-! ### `ElasticInnerLoop.elastic_solver` (lines 261-264)

`weights[i] = regressor.fit(X, y).coef_;
weights[i] /= np.linalg.norm(views[i] @ weights[i])`.  The regression solver
is an external black box; the normalization step applied to whatever
coefficient vector it returned is what the code owns. -/
noncomputable def elasticNormalize {N p : ℕ} (X : Fin N → Fin p → ℝ)
    (coef : Vec p) : Vec p :=
  (l2norm (matVec X coef))⁻¹ • coef

/-- Claim C2 counterexample: one PLS update on the 1-sample views
`X₀ = [[2]]`, with the other view's current score `(1)`: the updated score for
view 0 is `(2)`, whose L2 norm is `2`, not `1` — after a PLS iteration it is
the weights, not the scores, that are unit-normalized. -/
theorem C2_counterexample_pls_score_not_unit :
    l2norm (plsScore (fun (_ : Fin 1) (_ : Fin 1) => (2 : ℝ))
      (![fun _ => 0, fun _ => 1] : Fin 2 → Vec 1) 0) ≠ 1 := by
  have hsum : sumOthers (![fun _ => 0, fun _ => 1] : Fin 2 → Vec 1) 0 =
      fun _ => 1 := by
    funext k
    unfold sumOthers
    have herase : (Finset.univ.erase (0 : Fin 2)) = {1} := by decide
    rw [herase, Finset.sum_singleton]
    rfl
  have hraw : plsRawWeight (fun (_ : Fin 1) (_ : Fin 1) => (2 : ℝ))
      (![fun _ => 0, fun _ => 1] : Fin 2 → Vec 1) 0 = fun _ => 2 := by
    unfold plsRawWeight matTvec
    rw [hsum]
    funext j
    rw [Fin.sum_univ_one]
    norm_num
  have hrawnorm : l2norm (fun _ : Fin 1 => (2 : ℝ)) = 2 := by
    unfold l2norm sumSq
    rw [Fin.sum_univ_one]
    rw [show ((2:ℝ)^2 : ℝ) = 2^2 by norm_num, Real.sqrt_sq (by norm_num)]
  have hw : plsWeight (fun (_ : Fin 1) (_ : Fin 1) => (2 : ℝ))
      (![fun _ => 0, fun _ => 1] : Fin 2 → Vec 1) 0 = fun _ => 1 := by
    unfold plsWeight
    rw [hraw, hrawnorm]
    funext j
    rw [Pi.smul_apply, smul_eq_mul]
    norm_num
  have hscore : plsScore (fun (_ : Fin 1) (_ : Fin 1) => (2 : ℝ))
      (![fun _ => 0, fun _ => 1] : Fin 2 → Vec 1) 0 = fun _ => 2 := by
    unfold plsScore matVec
    rw [hw]
    funext k
    rw [Fin.sum_univ_one]
    norm_num
  rw [hscore, hrawnorm]
  norm_num

/-- Claim C2 (amended): after a PLS-family update with a nonzero raw weight it
is the WEIGHT vector for view `i` that has unit L2 norm (the score
`views[i] @ weights[i]` is recomputed from it but not normalized); the elastic
strategy instead rescales the regression coefficients so that
`‖views[i] @ weights[i]‖₂ = 1`, i.e. the score itself is unit-norm.  (The ADMM
strategy applies no normalization in its update.) -/
theorem C2_update_normalization (m N p : ℕ) (X : Fin N → Fin p → ℝ)
    (scores : Fin m → Vec N) (i : Fin m) (coef : Vec p)
    (hraw : plsRawWeight X scores i ≠ 0)
    (hcoef : matVec X coef ≠ 0) :
    l2norm (plsWeight X scores i) = 1 ∧
    l2norm (matVec X (elasticNormalize X coef)) = 1 := by
  constructor
  · exact l2norm_normalize _ hraw
  · unfold elasticNormalize
    rw [matVec_smul]
    exact l2norm_normalize _ hcoef

/-- Claim C2 witness for the amended statement: `X = [[2]]`, partner score
`(1)`, elastic coefficient `(3)`; both hypotheses hold and both normalizations
give unit norm. -/
theorem C2_witness :
    (plsRawWeight (fun (_ : Fin 1) (_ : Fin 1) => (2 : ℝ))
        (![fun _ => 0, fun _ => 1] : Fin 2 → Vec 1) 0 ≠ 0) ∧
    (matVec (fun (_ : Fin 1) (_ : Fin 1) => (2 : ℝ)) (fun _ => 3) ≠ 0) ∧
    (l2norm (plsWeight (fun (_ : Fin 1) (_ : Fin 1) => (2 : ℝ))
        (![fun _ => 0, fun _ => 1] : Fin 2 → Vec 1) 0) = 1 ∧
      l2norm (matVec (fun (_ : Fin 1) (_ : Fin 1) => (2 : ℝ))
        (elasticNormalize (fun (_ : Fin 1) (_ : Fin 1) => (2 : ℝ))
          (fun _ => 3))) = 1) := by
  have h1 : plsRawWeight (fun (_ : Fin 1) (_ : Fin 1) => (2 : ℝ))
      (![fun _ => 0, fun _ => 1] : Fin 2 → Vec 1) 0 ≠ 0 := by
    intro h
    have h0 := congrFun h 0
    unfold plsRawWeight matTvec sumOthers at h0
    have herase : (Finset.univ.erase (0 : Fin 2)) = {1} := by decide
    rw [Fin.sum_univ_one] at h0
    rw [herase, Finset.sum_singleton] at h0
    simp at h0
  have h2 : matVec (fun (_ : Fin 1) (_ : Fin 1) => (2 : ℝ)) (fun _ => 3) ≠ 0 := by
    intro h
    have h0 := congrFun h 0
    unfold matVec at h0
    rw [Fin.sum_univ_one] at h0
    simp at h0
  exact ⟨h1, h2, C2_update_normalization 2 1 1 _ _ 0 _ h1 h2⟩

/-! ### `ADMMInnerLoop.update_view` (lines 320-352) and `prox_mu_f` (357-367)

Per outer view-update the code computes `gradient = views[i].T @
targets.sum(axis=0)` once, then runs `for _ in range(self.max_iter):` — a
nested inner loop with NO break and no convergence test — performing the
proximal weight step, appending `‖X w + η‖` to `unnorm_z`, the `z` proximal
projection, the dual update `η += X w − z`, and appending `‖η‖`, `‖X w‖` and
`‖w‖₁` to the three remaining diagnostic lists.  (The `if ‖η‖ < 1e-8:
print('here')` line only prints; it does not alter state or control flow and
is omitted.)  The four diagnostic lists therefore receive exactly one entry
per executed inner-loop pass. -/

/-- `prox_mu_f(x, mu, c, tau)`: the three-region elementwise map.  numpy
assigns `mask_1` first and `mask_2` second, so where both masks hold (possible
only when `mu*tau < 0`) the `mask_2` branch is the one in effect — hence
`mask_2` is tested first here. -/
noncomputable def prox_mu_f {p : ℕ} (x : Vec p) (mu : ℝ) (c : Vec p) (tau : ℝ) :
    Vec p :=
  fun i =>
    if x i + mu * c i < -(mu * tau) then x i + mu * (c i + tau)
    else if mu * tau < x i + mu * c i then x i + mu * (c i - tau)
    else 0

/-- The per-view ADMM state mutated by the inner loop, together with the four
diagnostic lists the loop appends to. -/
structure ADMMState (N p : ℕ) where
  w : Vec p
  z : Vec N
  eta : Vec N
  unnormZ : List ℝ
  normEta : List ℝ
  normProj : List ℝ
  normWeights : List ℝ

/-- One pass of the ADMM inner loop (lines 335-350), for view data `X`,
precomputed `gradient`, parameters `mu`, `lam`, `c` and sample count `N`
(the threshold offset is `N * c`). -/
noncomputable def admmStep {N p : ℕ} (X : Fin N → Fin p → ℝ) (gradient : Vec p)
    (mu lam c : ℝ) (s : ADMMState N p) : ADMMState N p :=
  let w' := prox_mu_f
    (s.w - (mu / lam) • matTvec X (matVec X s.w - s.z + s.eta)) mu gradient
    (N * c)
  let z' := prox_lam_g (matVec X w' + s.eta)
  let eta' := s.eta + matVec X w' - z'
  { w := w'
    z := z'
    eta := eta'
    unnormZ := s.unnormZ ++ [l2norm (matVec X w' + s.eta)]
    normEta := s.normEta ++ [l2norm eta']
    normProj := s.normProj ++ [l2norm (matVec X w')]
    normWeights := s.normWeights ++ [l1norm w'] }

/-- The inner loop `for _ in range(max_iter)`: it iterates the step exactly
`maxIter` times — there is no convergence check and no early exit. -/
noncomputable def admmInnerLoop {N p : ℕ} (X : Fin N → Fin p → ℝ)
    (gradient : Vec p) (mu lam c : ℝ) : ℕ → ADMMState N p → ADMMState N p
  | 0, s => s
  | (fuel + 1), s => admmInnerLoop X gradient mu lam c fuel
      (admmStep X gradient mu lam c s)

/-- `ADMMInnerLoop.update_view` for view `i`: the gradient from the
masked-array target sum, then the inner loop started from the current
`(w, z, eta)` with freshly emptied diagnostic lists. -/
noncomputable def admmUpdateView {m N p : ℕ} (X : Fin N → Fin p → ℝ)
    (scores : Fin m → Vec N) (i : Fin m) (mu lam c : ℝ) (maxIter : ℕ)
    (w : Vec p) (z eta : Vec N) : ADMMState N p :=
  admmInnerLoop X (matTvec X (sumOthers scores i)) mu lam c maxIter
    { w := w, z := z, eta := eta
      unnormZ := [], normEta := [], normProj := [], normWeights := [] }

theorem admmStep_lengths {N p : ℕ} (X : Fin N → Fin p → ℝ)
    (gradient : Vec p) (mu lam c : ℝ) (s : ADMMState N p) :
    (admmStep X gradient mu lam c s).unnormZ.length = s.unnormZ.length + 1 ∧
    (admmStep X gradient mu lam c s).normEta.length = s.normEta.length + 1 ∧
    (admmStep X gradient mu lam c s).normProj.length = s.normProj.length + 1 ∧
    (admmStep X gradient mu lam c s).normWeights.length =
      s.normWeights.length + 1 := by
  refine ⟨?_, ?_, ?_, ?_⟩ <;> simp [admmStep]

theorem admmInnerLoop_lengths {N p : ℕ} (X : Fin N → Fin p → ℝ)
    (gradient : Vec p) (mu lam c : ℝ) (fuel : ℕ) (s : ADMMState N p) :
    (admmInnerLoop X gradient mu lam c fuel s).unnormZ.length =
      s.unnormZ.length + fuel ∧
    (admmInnerLoop X gradient mu lam c fuel s).normEta.length =
      s.normEta.length + fuel ∧
    (admmInnerLoop X gradient mu lam c fuel s).normProj.length =
      s.normProj.length + fuel ∧
    (admmInnerLoop X gradient mu lam c fuel s).normWeights.length =
      s.normWeights.length + fuel := by
  induction fuel generalizing s with
  | zero => simp [admmInnerLoop]
  | succ k ih =>
    have h := ih (admmStep X gradient mu lam c s)
    have hs := admmStep_lengths X gradient mu lam c s
    unfold admmInnerLoop
    refine ⟨?_, ?_, ?_, ?_⟩
    · rw [h.1, hs.1]; omega
    · rw [h.2.1, hs.2.1]; omega
    · rw [h.2.2.1, hs.2.2.1]; omega
    · rw [h.2.2.2, hs.2.2.2]; omega

/-- Claim C6: each per-view ADMM update runs its inner fixed-point loop for
exactly `max_iter` iterations, with no convergence check and no early exit:
every one of the four diagnostic lists appended to once per pass ends with
exactly `max_iter` entries, for every input. -/
theorem C6_admm_inner_loop_runs_full_count (m N p : ℕ)
    (X : Fin N → Fin p → ℝ) (scores : Fin m → Vec N) (i : Fin m)
    (mu lam c : ℝ) (maxIter : ℕ) (w : Vec p) (z eta : Vec N) :
    (admmUpdateView X scores i mu lam c maxIter w z eta).unnormZ.length =
      maxIter ∧
    (admmUpdateView X scores i mu lam c maxIter w z eta).normEta.length =
      maxIter ∧
    (admmUpdateView X scores i mu lam c maxIter w z eta).normProj.length =
      maxIter ∧
    (admmUpdateView X scores i mu lam c maxIter w z eta).normWeights.length =
      maxIter := by
  have h := admmInnerLoop_lengths X (matTvec X (sumOthers scores i)) mu lam c
    maxIter
    { w := w, z := z, eta := eta
      unnormZ := [], normEta := [], normProj := [], normWeights := [] }
  simpa [admmUpdateView] using h

/-! ### `_bin_search` (lines 399-425)

Generic monotone-bracketing step.  If `previous_val is None` it is replaced by
`current_val`; then the branch on the sign of `current_val` proposes the next
parameter and tightens one end of the bracket.  Returns
`(new, current, min_, max_)`. -/
noncomputable def binSearch (current previous current_val : ℝ)
    (previous_val : Option ℝ) (min_ max_ : ℝ) : ℝ × ℝ × ℝ × ℝ :=
  let pv := match previous_val with
    | Option.none => current_val
    | Option.some v => v
  if current_val ≤ 0 then
    ((if pv ≤ 0 then (current + max_) / 2 else (current + previous) / 2),
      current, (if min_ < current then current else min_), max_)
  else
    ((if 0 < pv then (current + min_) / 2 else (current + previous) / 2),
      current, min_, (if current < max_ then current else max_))

/-! ### `_delta_search` (lines 428-454)

`w = w / ‖w‖₂`; then `min_ = 0; max_ = 10; current = init(= 0); previous =
current; previous_val = None; i = 0`, and a `while not converged` loop: each
pass increments `i`, computes `coef = _soft_threshold(w, current, positive)`,
normalizes it when its norm is positive, sets `current_val = c - ‖coef‖₁`,
applies `_bin_search`, stores `previous_val = current_val`, and sets
`converged` when `|current_val| < 1e-5`, `|max_ - min_| < 1e-30` or `i == 50`.
Returns the last computed `coef`.  The loop therefore executes at most 50
passes, so it is embedded as fuel-50 recursion (the `i == 50` disjunct makes
the fuel bound exact, not an approximation). -/

/-- The loop state of `_delta_search`: bracket and parameter values, the
stored `previous_val`, the last computed `coef`, and the pass counter `i`. -/
structure DSState (n : ℕ) where
  current : ℝ
  previous : ℝ
  min : ℝ
  max : ℝ
  previousVal : Option ℝ
  coef : Vec n
  count : ℕ

/-- `if np.linalg.norm(coef) > 0: coef /= np.linalg.norm(coef)`. -/
noncomputable def dsNormalize {n : ℕ} (v : Vec n) : Vec n :=
  if 0 < l2norm v then (l2norm v)⁻¹ • v else v

/-- The convergence tolerance `1e-5` of `_delta_search`. -/
noncomputable def dsEps : ℝ := 1 / 10 ^ 5

/-- The bracket-collapse tolerance `1e-30` of `_delta_search`. -/
noncomputable def dsBracketEps : ℝ := 1 / 10 ^ 30

/-- One pass of the `while not converged` loop body. -/
noncomputable def dsPass {n : ℕ} (w : Vec n) (c : ℝ) (p : Bool)
    (s : DSState n) : DSState n :=
  let coef := dsNormalize (softThreshold w s.current p)
  let val := c - l1norm coef
  let r := binSearch s.current s.previous val s.previousVal s.min s.max
  { current := r.1, previous := r.2.1, min := r.2.2.1, max := r.2.2.2,
    previousVal := Option.some val, coef := coef, count := s.count + 1 }

/-- The `converged` test at the end of a pass, on the post-pass state:
`current_val` is `c - ‖coef‖₁` for the `coef` just computed, and `min_`,
`max_`, `i` are the just-updated values. -/
noncomputable def dsConverged {n : ℕ} (c : ℝ) (s : DSState n) : Prop :=
  |c - l1norm s.coef| < dsEps ∨ |s.max - s.min| < dsBracketEps ∨ s.count = 50

open Classical in
/-- The `while not converged` loop, with fuel: each unit of fuel is one pass;
the pass runs, then the loop exits if `converged` was set. -/
noncomputable def dsRun {n : ℕ} (w : Vec n) (c : ℝ) (p : Bool) :
    ℕ → DSState n → DSState n
  | 0, s => s
  | (fuel + 1), s =>
      let s' := dsPass w c p s
      if dsConverged c s' then s' else dsRun w c p fuel s'

/-- The state of `_delta_search` just before its loop (with `init = 0`, the
value every caller in the file uses).  `coef` has no Python value yet; the
loop always executes at least one pass, so the placeholder `0` is never
returned. -/
def dsInit (n : ℕ) : DSState n :=
  { current := 0, previous := 0, min := 0, max := 10,
    previousVal := Option.none, coef := 0, count := 0 }

/-- `_delta_search(w, c, positive)`: normalize `w`, run the loop (at most 50
passes, so fuel 50 is exact), return the final `coef`. -/
noncomputable def deltaSearch {n : ℕ} (w : Vec n) (c : ℝ) (p : Bool) : Vec n :=
  (dsRun ((l2norm w)⁻¹ • w) c p 50 (dsInit n)).coef

/-- The number of loop passes `i` executed by `_delta_search(w, c, positive)`. -/
noncomputable def deltaSearchIters {n : ℕ} (w : Vec n) (c : ℝ) (p : Bool) : ℕ :=
  (dsRun ((l2norm w)⁻¹ • w) c p 50 (dsInit n)).count

theorem dsNormalize_zero_or_unit {n : ℕ} (v : Vec n) :
    dsNormalize v = 0 ∨ l2norm (dsNormalize v) = 1 := by
  unfold dsNormalize
  by_cases h : 0 < l2norm v
  · right
    rw [if_pos h]
    exact l2norm_normalize v ((l2norm_pos_iff v).mp h)
  · left
    rw [if_neg h]
    have h0 : l2norm v = 0 := le_antisymm (not_lt.mp h) (l2norm_nonneg v)
    exact (l2norm_eq_zero_iff v).mp h0

theorem dsRun_coef_zero_or_unit {n : ℕ} (w : Vec n) (c : ℝ) (p : Bool)
    (fuel : ℕ) (s : DSState n) (hs : s.coef = 0 ∨ l2norm s.coef = 1) :
    (dsRun w c p fuel s).coef = 0 ∨ l2norm (dsRun w c p fuel s).coef = 1 := by
  induction fuel generalizing s with
  | zero => exact hs
  | succ k ih =>
    unfold dsRun
    have hstep : (dsPass w c p s).coef = 0 ∨
        l2norm (dsPass w c p s).coef = 1 := dsNormalize_zero_or_unit _
    by_cases hconv : dsConverged c (dsPass w c p s)
    · simp only [hconv, if_true]
      exact hstep
    · simp only [hconv, if_false]
      exact ih _ hstep

/-- Claim C10: inside `_delta_search` the candidate `coef` is divided by its
L2 norm only under the guard `‖coef‖ > 0` — when the guard fails the vector is
left untouched, so the division is always well defined — and consequently the
returned vector is either the all-zero vector or has unit L2 norm. -/
theorem C10_delta_search_division_safe (n : ℕ) (w : Vec n) (c : ℝ) (p : Bool)
    (hw : l2norm w ≠ 0) :
    (∀ v : Vec n, ¬ 0 < l2norm v → dsNormalize v = v) ∧
    (deltaSearch w c p = 0 ∨ l2norm (deltaSearch w c p) = 1) := by
  constructor
  · intro v hv
    unfold dsNormalize
    rw [if_neg hv]
  · exact dsRun_coef_zero_or_unit _ c p 50 (dsInit n) (Or.inl rfl)

/-- Claim C10 witness: the concrete weight vector `w = (3)` has nonzero norm
and the conclusions hold for it. -/
theorem C10_witness :
    l2norm (fun _ : Fin 1 => (3 : ℝ)) ≠ 0 ∧
    ((∀ v : Vec 1, ¬ 0 < l2norm v → dsNormalize v = v) ∧
      (deltaSearch (fun _ : Fin 1 => (3 : ℝ)) 1 false = 0 ∨
        l2norm (deltaSearch (fun _ : Fin 1 => (3 : ℝ)) 1 false) = 1)) := by
  have hw : l2norm (fun _ : Fin 1 => (3 : ℝ)) ≠ 0 := by
    intro h
    have h3 : (fun _ : Fin 1 => (3 : ℝ)) = 0 :=
      (l2norm_eq_zero_iff (fun _ : Fin 1 => (3 : ℝ))).mp h
    have h0 := congrFun h3 0
    norm_num at h0
  exact ⟨hw, C10_delta_search_division_safe 1 _ 1 false hw⟩

/-! ### Monotonicity of the calibration curve of `_delta_search`

The L1 norm of the L2-normalized soft-thresholded vector is non-increasing in
the threshold.  This is the monotonicity that makes the binary search of
`_delta_search` meaningful, and it is the analytic heart of the claim that
increasing budgets produce non-decreasing result norms. -/

theorem abs_softThreshold {n : ℕ} (w : Vec n) (t : ℝ) (p : Bool) (ht : 0 ≤ t)
    (i : Fin n) : |softThreshold w t p i| = max (|w i| - t) 0 := by
  unfold softThreshold sgnR
  rcases lt_trichotomy 0 (w i) with h | h | h
  · rw [if_pos h, one_mul, abs_of_nonneg (le_max_right _ _),
      abs_of_pos h]
  · rw [if_neg (by rw [← h]; exact lt_irrefl 0),
      if_neg (by rw [← h]; exact lt_irrefl 0), zero_mul, abs_zero, ← h,
      abs_zero, zero_sub]
    exact (max_eq_right (by linarith)).symm
  · rw [if_neg (by linarith), if_pos h, neg_one_mul, abs_neg,
      abs_of_nonneg (le_max_right _ _), abs_of_neg h]

theorem abs_softThreshold_shift {n : ℕ} (w : Vec n) (t₁ t₂ : ℝ) (p : Bool)
    (h0 : 0 ≤ t₁) (h12 : t₁ ≤ t₂) (i : Fin n) :
    |softThreshold w t₂ p i| =
      max (|softThreshold w t₁ p i| - (t₂ - t₁)) 0 := by
  rw [abs_softThreshold w t₂ p (le_trans h0 h12) i,
    abs_softThreshold w t₁ p h0 i]
  rcases le_total (|w i|) t₁ with h | h
  · rw [max_eq_right (show |w i| - t₁ ≤ 0 by linarith), zero_sub,
      max_eq_right (show -(t₂ - t₁) ≤ 0 by linarith),
      max_eq_right (show |w i| - t₂ ≤ 0 by linarith)]
  · congr 1
    rw [max_eq_left (sub_nonneg.mpr h)]
    ring

/-- Key algebraic inequality: soft-thresholding a non-negative vector does not
increase the squared ratio `(∑ x)² / ∑ x²`.  Proof by comparing `u` with
`a = (u - s)⁺` and `d = u - a` (so `d = min(u, s)`), using Cauchy–Schwarz on
the support of `a`. -/
theorem thresh_ratio_sq {n : ℕ} (u : Vec n) (hu : ∀ i, 0 ≤ u i) (s : ℝ)
    (hs : 0 ≤ s) :
    (∑ i, max (u i - s) 0) ^ 2 * (∑ i, u i ^ 2) ≤
      (∑ i, u i) ^ 2 * (∑ i, (max (u i - s) 0) ^ 2) := by
  classical
  set a : Vec n := fun i => max (u i - s) 0 with ha_def
  set d : Vec n := fun i => u i - a i with hd_def
  have ha0 : ∀ i, 0 ≤ a i := fun i => le_max_right _ _
  have hu_eq : ∀ i, u i = a i + d i := fun i => by simp [hd_def]
  have hd0 : ∀ i, 0 ≤ d i := by
    intro i
    simp only [hd_def, ha_def]
    rcases le_total (u i - s) 0 with h | h
    · rw [max_eq_right h]
      simpa using hu i
    · rw [max_eq_left h]
      linarith
  have hds : ∀ i, d i ≤ s := by
    intro i
    simp only [hd_def, ha_def]
    rcases le_total (u i - s) 0 with h | h
    · rw [max_eq_right h]
      linarith
    · rw [max_eq_left h]
      linarith
  have had : ∀ i, a i * d i = s * a i := by
    intro i
    rcases le_total (u i - s) 0 with h | h
    · have haz : a i = 0 := by
        simp only [ha_def]
        rw [max_eq_right h]
      rw [haz]
      ring
    · have hai : a i = u i - s := by
        simp only [ha_def]
        rw [max_eq_left h]
      have hdi : d i = s := by
        simp only [hd_def, hai]
        ring
      rw [hdi]
      ring
  set T : Finset (Fin n) := Finset.univ.filter (fun i => 0 < a i) with hT
  set A := ∑ i, a i with hA
  set A2 := ∑ i, a i ^ 2 with hA2
  set D := ∑ i, d i with hD
  set D2 := ∑ i, d i ^ 2 with hD2
  have hA_T : A = ∑ i ∈ T, a i := by
    rw [hA, hT]
    refine (Finset.sum_filter_of_ne ?_).symm
    intro x _ hx
    exact (ha0 x).lt_of_ne (Ne.symm hx)
  have hA2k : A ^ 2 ≤ (T.card : ℝ) * A2 := by
    have h2 : (∑ i ∈ T, a i) ^ 2 ≤ (T.card : ℝ) * ∑ i ∈ T, a i ^ 2 :=
      sq_sum_le_card_mul_sum_sq
    have h3 : ∑ i ∈ T, a i ^ 2 ≤ A2 :=
      Finset.sum_le_sum_of_subset_of_nonneg (Finset.filter_subset _ _)
        (fun i _ _ => sq_nonneg _)
    calc A ^ 2 = (∑ i ∈ T, a i) ^ 2 := by rw [hA_T]
    _ ≤ (T.card : ℝ) * ∑ i ∈ T, a i ^ 2 := h2
    _ ≤ (T.card : ℝ) * A2 :=
      mul_le_mul_of_nonneg_left h3 (Nat.cast_nonneg _)
  have hksD : (T.card : ℝ) * s ≤ D := by
    have h1 : (T.card : ℝ) * s = ∑ _i ∈ T, s := by
      rw [Finset.sum_const, nsmul_eq_mul]
    have h2 : ∀ i ∈ T, s ≤ d i := by
      intro i hi
      have hai : 0 < a i := (Finset.mem_filter.mp hi).2
      have hui : 0 ≤ u i - s := by
        by_contra hcon
        push_neg at hcon
        have haz : a i = 0 := by
          simp only [ha_def]
          rw [max_eq_right hcon.le]
        rw [haz] at hai
        exact lt_irrefl 0 hai
      have hai' : a i = u i - s := by
        simp only [ha_def]
        rw [max_eq_left hui]
      have : d i = s := by
        simp only [hd_def, hai']
        ring
      rw [this]
    calc (T.card : ℝ) * s = ∑ _i ∈ T, s := h1
    _ ≤ ∑ i ∈ T, d i := Finset.sum_le_sum h2
    _ ≤ D := Finset.sum_le_sum_of_subset_of_nonneg (Finset.filter_subset _ _)
      (fun i _ _ => hd0 i)
  have hD2sD : D2 ≤ s * D := by
    have hpt : ∀ i, d i ^ 2 ≤ s * d i := by
      intro i
      nlinarith [hd0 i, hds i]
    calc D2 = ∑ i, d i ^ 2 := rfl
    _ ≤ ∑ i, s * d i := Finset.sum_le_sum (fun i _ => hpt i)
    _ = s * D := by rw [← Finset.mul_sum]
  have hU : (∑ i, u i) = A + D := by
    rw [hA, hD, ← Finset.sum_add_distrib]
    exact Finset.sum_congr rfl fun i _ => hu_eq i
  have hU2 : (∑ i, u i ^ 2) = A2 + 2 * s * A + D2 := by
    have hpt : ∀ i, u i ^ 2 = a i ^ 2 + 2 * s * a i + d i ^ 2 := by
      intro i
      have h1 : u i ^ 2 = a i ^ 2 + 2 * (a i * d i) + d i ^ 2 := by
        rw [hu_eq i]
        ring
      rw [h1, had i]
      ring
    calc (∑ i, u i ^ 2) = ∑ i, (a i ^ 2 + 2 * s * a i + d i ^ 2) :=
      Finset.sum_congr rfl (fun i _ => hpt i)
    _ = (∑ i, a i ^ 2) + 2 * s * (∑ i, a i) + (∑ i, d i ^ 2) := by
      rw [Finset.sum_add_distrib, Finset.sum_add_distrib, ← Finset.mul_sum]
    _ = A2 + 2 * s * A + D2 := rfl
  have hA0 : 0 ≤ A := Finset.sum_nonneg fun i _ => ha0 i
  have hD0 : 0 ≤ D := Finset.sum_nonneg fun i _ => hd0 i
  have hA20 : 0 ≤ A2 := Finset.sum_nonneg fun i _ => sq_nonneg _
  have hD20 : 0 ≤ D2 := Finset.sum_nonneg fun i _ => sq_nonneg _
  have hk0 : (0 : ℝ) ≤ (T.card : ℝ) := Nat.cast_nonneg _
  rw [hU, hU2]
  have key1 : s * A ^ 2 ≤ D * A2 := by
    calc s * A ^ 2 ≤ s * ((T.card : ℝ) * A2) :=
      mul_le_mul_of_nonneg_left hA2k hs
    _ = ((T.card : ℝ) * s) * A2 := by ring
    _ ≤ D * A2 := mul_le_mul_of_nonneg_right hksD hA20
  have key2 : (T.card : ℝ) * D2 ≤ D ^ 2 := by
    calc (T.card : ℝ) * D2 ≤ (T.card : ℝ) * (s * D) :=
      mul_le_mul_of_nonneg_left hD2sD hk0
    _ = ((T.card : ℝ) * s) * D := by ring
    _ ≤ D * D := mul_le_mul_of_nonneg_right hksD hD0
    _ = D ^ 2 := (sq D).symm
  have key3 : A ^ 2 * D2 ≤ D ^ 2 * A2 := by
    calc A ^ 2 * D2 ≤ ((T.card : ℝ) * A2) * D2 :=
      mul_le_mul_of_nonneg_right hA2k hD20
    _ = A2 * ((T.card : ℝ) * D2) := by ring
    _ ≤ A2 * D ^ 2 := mul_le_mul_of_nonneg_left key2 hA20
    _ = D ^ 2 * A2 := by ring
  have key1' : 2 * A * (s * A ^ 2) ≤ 2 * A * (D * A2) :=
    mul_le_mul_of_nonneg_left key1 (by linarith)
  nlinarith [key1', key3]

/-- The candidate computed in a `_delta_search` pass at threshold `t`:
soft-threshold then (guarded) L2 normalization. -/
noncomputable def dsCoefAt {n : ℕ} (w : Vec n) (p : Bool) (t : ℝ) : Vec n :=
  dsNormalize (softThreshold w t p)

/-- The L1 norm of that candidate — the quantity `_delta_search` steers toward
the requested budget `c`. -/
noncomputable def dsL1At {n : ℕ} (w : Vec n) (p : Bool) (t : ℝ) : ℝ :=
  l1norm (dsCoefAt w p t)

theorem dsL1At_nonneg {n : ℕ} (w : Vec n) (p : Bool) (t : ℝ) :
    0 ≤ dsL1At w p t := l1norm_nonneg _

theorem dsL1At_anti {n : ℕ} (w : Vec n) (p : Bool) (t₁ t₂ : ℝ)
    (h0 : 0 ≤ t₁) (h12 : t₁ ≤ t₂) : dsL1At w p t₂ ≤ dsL1At w p t₁ := by
  set v₁ := softThreshold w t₁ p with hv₁
  set v₂ := softThreshold w t₂ p with hv₂
  by_cases hz : 0 < l2norm v₂
  case neg =>
    have h0' : l2norm v₂ = 0 := le_antisymm (not_lt.mp hz) (l2norm_nonneg _)
    have hzero : v₂ = 0 := (l2norm_eq_zero_iff v₂).mp h0'
    have : dsL1At w p t₂ = 0 := by
      unfold dsL1At dsCoefAt dsNormalize
      rw [← hv₂, if_neg hz, hzero]
      simp [l1norm]
    rw [this]
    exact dsL1At_nonneg w p t₁
  case pos =>
    have habs : ∀ i, |v₂ i| = max (|v₁ i| - (t₂ - t₁)) 0 := fun i =>
      abs_softThreshold_shift w t₁ t₂ p h0 h12 i
    have habs_le : ∀ i, |v₂ i| ≤ |v₁ i| := by
      intro i
      rw [habs i]
      rcases le_total (|v₁ i| - (t₂ - t₁)) 0 with h | h
      · rw [max_eq_right h]
        exact abs_nonneg _
      · rw [max_eq_left h]
        linarith
    have hz₁ : 0 < l2norm v₁ := by
      rcases (lt_or_eq_of_le (l2norm_nonneg v₁)) with h | h
      · exact h
      · exfalso
        have h0' : v₁ = 0 := (l2norm_eq_zero_iff v₁).mp h.symm
        have : ∀ i, v₂ i = 0 := by
          intro i
          have := habs_le i
          rw [h0'] at this
          simp only [Pi.zero_apply, abs_zero] at this
          exact abs_eq_zero.mp (le_antisymm this (abs_nonneg _))
        have : v₂ = 0 := funext this
        rw [← l2norm_eq_zero_iff] at this
        exact absurd this (ne_of_gt hz)
    -- both normalized: the value is ℓ1/ℓ2
    have hform : ∀ t : ℝ, 0 < l2norm (softThreshold w t p) →
        dsL1At w p t =
          l1norm (softThreshold w t p) / l2norm (softThreshold w t p) := by
      intro t ht
      unfold dsL1At dsCoefAt dsNormalize
      rw [if_pos ht, l1norm_smul,
        abs_of_nonneg (inv_nonneg.mpr (l2norm_nonneg _)), inv_mul_eq_div]
    rw [hform t₂ (hv₂ ▸ hz), hform t₁ (hv₁ ▸ hz₁), ← hv₁, ← hv₂]
    -- reduce to the squared inequality via `thresh_ratio_sq`
    have hkey := thresh_ratio_sq (fun i => |v₁ i|) (fun i => abs_nonneg _)
      (t₂ - t₁) (by linarith)
    have e1 : (∑ i, max (|v₁ i| - (t₂ - t₁)) 0) = l1norm v₂ := by
      unfold l1norm
      exact Finset.sum_congr rfl fun i _ => (habs i).symm
    have e2 : (∑ i, (max (|v₁ i| - (t₂ - t₁)) 0) ^ 2) = sumSq v₂ := by
      unfold sumSq
      refine Finset.sum_congr rfl fun i _ => ?_
      rw [← habs i, sq_abs]
    have e3 : (∑ i, |v₁ i|) = l1norm v₁ := rfl
    have e4 : (∑ i, |v₁ i| ^ 2) = sumSq v₁ := by
      unfold sumSq
      exact Finset.sum_congr rfl fun i _ => sq_abs _
    rw [e1, e2, e3, e4] at hkey
    -- hkey : l1norm v₂ ^ 2 * sumSq v₁ ≤ l1norm v₁ ^ 2 * sumSq v₂
    have hs₂ : l2norm v₂ = Real.sqrt (sumSq v₂) := rfl
    have hs₁ : l2norm v₁ = Real.sqrt (sumSq v₁) := rfl
    rw [div_le_div_iff₀ hz hz₁]
    -- goal : l1norm v₂ * l2norm v₁ ≤ l1norm v₁ * l2norm v₂
    have hsq : (l1norm v₂ * l2norm v₁) ^ 2 ≤ (l1norm v₁ * l2norm v₂) ^ 2 := by
      have h₁ : (l1norm v₂ * l2norm v₁) ^ 2 = l1norm v₂ ^ 2 * sumSq v₁ := by
        rw [mul_pow, hs₁, Real.sq_sqrt (sumSq_nonneg v₁)]
      have h₂ : (l1norm v₁ * l2norm v₂) ^ 2 = l1norm v₁ ^ 2 * sumSq v₂ := by
        rw [mul_pow, hs₂, Real.sq_sqrt (sumSq_nonneg v₂)]
      rw [h₁, h₂]
      exact hkey
    have hnn₁ : 0 ≤ l1norm v₂ * l2norm v₁ :=
      mul_nonneg (l1norm_nonneg _) (l2norm_nonneg _)
    have hnn₂ : 0 ≤ l1norm v₁ * l2norm v₂ :=
      mul_nonneg (l1norm_nonneg _) (l2norm_nonneg _)
    calc l1norm v₂ * l2norm v₁
        = Real.sqrt ((l1norm v₂ * l2norm v₁) ^ 2) := (Real.sqrt_sq hnn₁).symm
    _ ≤ Real.sqrt ((l1norm v₁ * l2norm v₂) ^ 2) := Real.sqrt_le_sqrt hsq
    _ = l1norm v₁ * l2norm v₂ := Real.sqrt_sq hnn₂

/-! ### Bracketing facts about `_bin_search` and the `_delta_search` pass -/

/-- The effective previous value `_bin_search` branches on
(`previous_val = None` is replaced by `current_val`). -/
def pvEff (val : ℝ) (pv : Option ℝ) : ℝ :=
  match pv with
  | Option.none => val
  | Option.some v => v

theorem binSearch_eq (cur prev val : ℝ) (pv : Option ℝ) (mn mx : ℝ) :
    binSearch cur prev val pv mn mx =
      if val ≤ 0 then
        ((if pvEff val pv ≤ 0 then (cur + mx) / 2 else (cur + prev) / 2),
          cur, (if mn < cur then cur else mn), mx)
      else
        ((if 0 < pvEff val pv then (cur + mn) / 2 else (cur + prev) / 2),
          cur, mn, (if cur < mx then cur else mx)) := rfl

theorem binSearch_previous (cur prev val : ℝ) (pv : Option ℝ) (mn mx : ℝ) :
    (binSearch cur prev val pv mn mx).2.1 = cur := by
  rw [binSearch_eq]
  split_ifs <;> rfl

theorem binSearch_ge {t : ℝ} (cur prev val : ℝ) (pv : Option ℝ) (mn mx : ℝ)
    (h1 : t ≤ cur) (h2 : t ≤ prev) (h3 : t ≤ mn) (h4 : t ≤ mx) :
    t ≤ (binSearch cur prev val pv mn mx).1 ∧
    t ≤ (binSearch cur prev val pv mn mx).2.1 ∧
    t ≤ (binSearch cur prev val pv mn mx).2.2.1 ∧
    t ≤ (binSearch cur prev val pv mn mx).2.2.2 := by
  rw [binSearch_eq]
  split_ifs <;> exact ⟨by dsimp only; linarith, by dsimp only; linarith,
    by dsimp only; linarith, by dsimp only; linarith⟩

theorem binSearch_le {t : ℝ} (cur prev val : ℝ) (pv : Option ℝ) (mn mx : ℝ)
    (h1 : cur ≤ t) (h2 : prev ≤ t) (h3 : mn ≤ t) (h4 : mx ≤ t) :
    (binSearch cur prev val pv mn mx).1 ≤ t ∧
    (binSearch cur prev val pv mn mx).2.1 ≤ t ∧
    (binSearch cur prev val pv mn mx).2.2.1 ≤ t ∧
    (binSearch cur prev val pv mn mx).2.2.2 ≤ t := by
  rw [binSearch_eq]
  split_ifs <;> exact ⟨by dsimp only; linarith, by dsimp only; linarith,
    by dsimp only; linarith, by dsimp only; linarith⟩

/-- `_bin_search` depends on the function values only through their signs: two
calls whose current values have the same sign and whose previous values have
the same sign (or are both `None`) return the same output. -/
theorem binSearch_congr (cur prev : ℝ) (val₁ val₂ : ℝ) (pv₁ pv₂ : Option ℝ)
    (mn mx : ℝ) (hval : val₁ ≤ 0 ↔ val₂ ≤ 0)
    (hpv : (pv₁ = Option.none ∧ pv₂ = Option.none) ∨
      (∃ v₁ v₂, pv₁ = Option.some v₁ ∧ pv₂ = Option.some v₂ ∧
        (v₁ ≤ 0 ↔ v₂ ≤ 0))) :
    binSearch cur prev val₁ pv₁ mn mx = binSearch cur prev val₂ pv₂ mn mx := by
  rw [binSearch_eq, binSearch_eq]
  have hEff : pvEff val₁ pv₁ ≤ 0 ↔ pvEff val₂ pv₂ ≤ 0 := by
    rcases hpv with ⟨e1, e2⟩ | ⟨v₁, v₂, e1, e2, hiff⟩
    · rw [e1, e2]
      exact hval
    · rw [e1, e2]
      exact hiff
  by_cases h1 : val₁ ≤ 0
  · rw [if_pos h1, if_pos (hval.mp h1)]
    by_cases h2 : pvEff val₁ pv₁ ≤ 0
    · rw [if_pos h2, if_pos (hEff.mp h2)]
    · rw [if_neg h2, if_neg (fun hh => h2 (hEff.mpr hh))]
  · have h1' : ¬ val₂ ≤ 0 := fun hh => h1 (hval.mpr hh)
    rw [if_neg h1, if_neg h1']
    by_cases h2 : pvEff val₁ pv₁ ≤ 0
    · rw [if_neg (not_lt.mpr h2), if_neg (not_lt.mpr (hEff.mp h2))]
    · rw [if_pos (lt_of_not_le h2), if_pos (lt_of_not_le (fun hh => h2 (hEff.mpr hh)))]

/-- All four parameter components of a state lie at or above `t`. -/
def dsStateGE {n : ℕ} (t : ℝ) (s : DSState n) : Prop :=
  t ≤ s.current ∧ t ≤ s.previous ∧ t ≤ s.min ∧ t ≤ s.max

/-- All four parameter components of a state lie at or below `t`. -/
def dsStateLE {n : ℕ} (t : ℝ) (s : DSState n) : Prop :=
  s.current ≤ t ∧ s.previous ≤ t ∧ s.min ≤ t ∧ s.max ≤ t

/-- The bracket geometry maintained by the `_delta_search` loop:
`0 ≤ min_ ≤ current ≤ max_` and `min_ ≤ previous ≤ max_`. -/
def dsGeom {n : ℕ} (s : DSState n) : Prop :=
  0 ≤ s.min ∧ s.min ≤ s.current ∧ s.current ≤ s.max ∧
    s.min ≤ s.previous ∧ s.previous ≤ s.max

theorem dsPass_coef {n : ℕ} (w : Vec n) (c : ℝ) (p : Bool) (s : DSState n) :
    (dsPass w c p s).coef = dsCoefAt w p s.current := rfl

theorem dsPass_count {n : ℕ} (w : Vec n) (c : ℝ) (p : Bool) (s : DSState n) :
    (dsPass w c p s).count = s.count + 1 := rfl

theorem dsPass_previousVal {n : ℕ} (w : Vec n) (c : ℝ) (p : Bool)
    (s : DSState n) :
    (dsPass w c p s).previousVal =
      Option.some (c - dsL1At w p s.current) := rfl

theorem dsPass_current {n : ℕ} (w : Vec n) (c : ℝ) (p : Bool) (s : DSState n) :
    (dsPass w c p s).current =
      (binSearch s.current s.previous (c - dsL1At w p s.current)
        s.previousVal s.min s.max).1 := rfl

theorem dsPass_min {n : ℕ} (w : Vec n) (c : ℝ) (p : Bool) (s : DSState n) :
    (dsPass w c p s).min =
      (binSearch s.current s.previous (c - dsL1At w p s.current)
        s.previousVal s.min s.max).2.2.1 := rfl

theorem dsPass_max {n : ℕ} (w : Vec n) (c : ℝ) (p : Bool) (s : DSState n) :
    (dsPass w c p s).max =
      (binSearch s.current s.previous (c - dsL1At w p s.current)
        s.previousVal s.min s.max).2.2.2 := rfl

theorem dsPass_previous {n : ℕ} (w : Vec n) (c : ℝ) (p : Bool)
    (s : DSState n) : (dsPass w c p s).previous = s.current := by
  show (binSearch s.current s.previous (c - dsL1At w p s.current)
    s.previousVal s.min s.max).2.1 = s.current
  exact binSearch_previous _ _ _ _ _ _

theorem dsPass_preserves_ge {n : ℕ} {t : ℝ} (w : Vec n) (c : ℝ) (p : Bool)
    (s : DSState n) (h : dsStateGE t s) : dsStateGE t (dsPass w c p s) := by
  obtain ⟨h1, h2, h3, h4⟩ := h
  have hb := binSearch_ge (t := t) s.current s.previous
    (c - dsL1At w p s.current) s.previousVal s.min s.max h1 h2 h3 h4
  exact ⟨by rw [dsPass_current]; exact hb.1,
    by rw [dsPass_previous]; exact h1,
    by rw [dsPass_min]; exact hb.2.2.1,
    by rw [dsPass_max]; exact hb.2.2.2⟩

theorem dsPass_preserves_le {n : ℕ} {t : ℝ} (w : Vec n) (c : ℝ) (p : Bool)
    (s : DSState n) (h : dsStateLE t s) : dsStateLE t (dsPass w c p s) := by
  obtain ⟨h1, h2, h3, h4⟩ := h
  have hb := binSearch_le (t := t) s.current s.previous
    (c - dsL1At w p s.current) s.previousVal s.min s.max h1 h2 h3 h4
  exact ⟨by rw [dsPass_current]; exact hb.1,
    by rw [dsPass_previous]; exact h1,
    by rw [dsPass_min]; exact hb.2.2.1,
    by rw [dsPass_max]; exact hb.2.2.2⟩

/-- When the previous value is positive while the current one is not, the
previous parameter must exceed the current one (the calibration curve is
non-increasing). -/
theorem dsPrev_gt_of_pv_pos {n : ℕ} (w : Vec n) (c : ℝ) (p : Bool)
    (s : DSState n) (hnn : 0 ≤ s.current) (hnnp : 0 ≤ s.previous)
    (hpv : 0 < c - dsL1At w p s.previous)
    (hval : c - dsL1At w p s.current ≤ 0) :
    s.current < s.previous := by
  by_contra hcon
  push_neg at hcon
  have := dsL1At_anti w p s.previous s.current hnnp hcon
  linarith

theorem dsPrev_lt_of_pv_nonpos {n : ℕ} (w : Vec n) (c : ℝ) (p : Bool)
    (s : DSState n) (hnn : 0 ≤ s.current) (hnnp : 0 ≤ s.previous)
    (hpv : c - dsL1At w p s.previous ≤ 0)
    (hval : 0 < c - dsL1At w p s.current) :
    s.previous < s.current := by
  by_contra hcon
  push_neg at hcon
  have := dsL1At_anti w p s.current s.previous hnn hcon
  linarith

/-- A pass with non-positive current value leaves every parameter component at
or above the pass's evaluation point. -/
theorem dsPass_pivot_ge {n : ℕ} (w : Vec n) (c : ℝ) (p : Bool) (s : DSState n)
    (hgeom : dsGeom s)
    (hpv : s.previousVal = Option.none ∨
      s.previousVal = Option.some (c - dsL1At w p s.previous))
    (hval : c - dsL1At w p s.current ≤ 0) :
    dsStateGE s.current (dsPass w c p s) := by
  obtain ⟨g0, g1, g2, g3, g4⟩ := hgeom
  have hprev_case : ¬ pvEff (c - dsL1At w p s.current) s.previousVal ≤ 0 →
      s.current < s.previous := by
    intro hne
    rcases hpv with h | h
    · rw [h] at hne
      exact absurd hval hne
    · rw [h] at hne
      exact dsPrev_gt_of_pv_pos w c p s (le_trans g0 g1) (le_trans g0 g3)
        (lt_of_not_le hne) hval
  refine ⟨?_, ?_, ?_, ?_⟩
  · rw [dsPass_current, binSearch_eq, if_pos hval]
    dsimp only
    split_ifs with hpveff
    · linarith
    · have := hprev_case hpveff
      linarith
  · rw [dsPass_previous]
  · rw [dsPass_min, binSearch_eq, if_pos hval]
    dsimp only
    split_ifs <;> linarith
  · rw [dsPass_max, binSearch_eq, if_pos hval]
    dsimp only
    linarith

/-- A pass with positive current value leaves every parameter component at or
below the pass's evaluation point (and non-negative). -/
theorem dsPass_pivot_le {n : ℕ} (w : Vec n) (c : ℝ) (p : Bool) (s : DSState n)
    (hgeom : dsGeom s)
    (hpv : s.previousVal = Option.none ∨
      s.previousVal = Option.some (c - dsL1At w p s.previous))
    (hval : 0 < c - dsL1At w p s.current) :
    dsStateLE s.current (dsPass w c p s) ∧ dsStateGE 0 (dsPass w c p s) := by
  obtain ⟨g0, g1, g2, g3, g4⟩ := hgeom
  have hprev_case : pvEff (c - dsL1At w p s.current) s.previousVal ≤ 0 →
      s.previous < s.current := by
    intro hle
    rcases hpv with h | h
    · rw [h] at hle
      exact absurd hval (not_lt.mpr hle)
    · rw [h] at hle
      exact dsPrev_lt_of_pv_nonpos w c p s (le_trans g0 g1) (le_trans g0 g3)
        hle hval
  have hvneg : ¬ (c - dsL1At w p s.current ≤ 0) := not_le.mpr hval
  constructor
  · refine ⟨?_, ?_, ?_, ?_⟩
    · rw [dsPass_current, binSearch_eq, if_neg hvneg]
      dsimp only
      split_ifs with hpveff
      · linarith
      · have := hprev_case (not_lt.mp hpveff)
        linarith
    · rw [dsPass_previous]
    · rw [dsPass_min, binSearch_eq, if_neg hvneg]
      dsimp only
      linarith
    · rw [dsPass_max, binSearch_eq, if_neg hvneg]
      dsimp only
      split_ifs <;> linarith
  · refine ⟨?_, ?_, ?_, ?_⟩
    · rw [dsPass_current, binSearch_eq, if_neg hvneg]
      dsimp only
      split_ifs with hpveff
      · linarith
      · have := hprev_case (not_lt.mp hpveff)
        linarith
    · rw [dsPass_previous]
      linarith
    · rw [dsPass_min, binSearch_eq, if_neg hvneg]
      dsimp only
      linarith
    · rw [dsPass_max, binSearch_eq, if_neg hvneg]
      dsimp only
      split_ifs <;> linarith

/-- A pass preserves the bracket geometry. -/
theorem dsPass_geom {n : ℕ} (w : Vec n) (c : ℝ) (p : Bool) (s : DSState n)
    (hgeom : dsGeom s)
    (hpv : s.previousVal = Option.none ∨
      s.previousVal = Option.some (c - dsL1At w p s.previous)) :
    dsGeom (dsPass w c p s) := by
  obtain ⟨g0, g1, g2, g3, g4⟩ := hgeom
  have hprev' : (dsPass w c p s).previous = s.current := dsPass_previous w c p s
  by_cases hval : c - dsL1At w p s.current ≤ 0
  · have hprev_case : ¬ pvEff (c - dsL1At w p s.current) s.previousVal ≤ 0 →
        s.current < s.previous := by
      intro hne
      rcases hpv with h | h
      · rw [h] at hne
        exact absurd hval hne
      · rw [h] at hne
        exact dsPrev_gt_of_pv_pos w c p s (le_trans g0 g1) (le_trans g0 g3)
          (lt_of_not_le hne) hval
    have hmin : (dsPass w c p s).min =
        if s.min < s.current then s.current else s.min := by
      rw [dsPass_min, binSearch_eq, if_pos hval]
    have hmax : (dsPass w c p s).max = s.max := by
      rw [dsPass_max, binSearch_eq, if_pos hval]
    have hcur : (dsPass w c p s).current =
        if pvEff (c - dsL1At w p s.current) s.previousVal ≤ 0 then
          (s.current + s.max) / 2 else (s.current + s.previous) / 2 := by
      rw [dsPass_current, binSearch_eq, if_pos hval]
    unfold dsGeom
    rw [hmin, hmax, hprev', hcur]
    by_cases hpveff : pvEff (c - dsL1At w p s.current) s.previousVal ≤ 0
    · rw [if_pos hpveff]
      split_ifs <;>
        exact ⟨by linarith, by linarith, by linarith, by linarith, by linarith⟩
    · have hpc := hprev_case hpveff
      rw [if_neg hpveff]
      split_ifs <;>
        exact ⟨by linarith, by linarith, by linarith, by linarith, by linarith⟩
  · have hvalpos : 0 < c - dsL1At w p s.current := lt_of_not_le hval
    have hprev_case : pvEff (c - dsL1At w p s.current) s.previousVal ≤ 0 →
        s.previous < s.current := by
      intro hle
      rcases hpv with h | h
      · rw [h] at hle
        exact absurd hvalpos (not_lt.mpr hle)
      · rw [h] at hle
        exact dsPrev_lt_of_pv_nonpos w c p s (le_trans g0 g1) (le_trans g0 g3)
          hle hvalpos
    have hmin : (dsPass w c p s).min = s.min := by
      rw [dsPass_min, binSearch_eq, if_neg hval]
    have hmax : (dsPass w c p s).max =
        if s.current < s.max then s.current else s.max := by
      rw [dsPass_max, binSearch_eq, if_neg hval]
    have hcur : (dsPass w c p s).current =
        if 0 < pvEff (c - dsL1At w p s.current) s.previousVal then
          (s.current + s.min) / 2 else (s.current + s.previous) / 2 := by
      rw [dsPass_current, binSearch_eq, if_neg hval]
    unfold dsGeom
    rw [hmin, hmax, hprev', hcur]
    by_cases hpveff : 0 < pvEff (c - dsL1At w p s.current) s.previousVal
    · rw [if_pos hpveff]
      split_ifs <;>
        exact ⟨by linarith, by linarith, by linarith, by linarith, by linarith⟩
    · have hpc := hprev_case (not_lt.mp hpveff)
      rw [if_neg hpveff]
      split_ifs <;>
        exact ⟨by linarith, by linarith, by linarith, by linarith, by linarith⟩

open Classical in
theorem dsRun_succ {n : ℕ} (w : Vec n) (c : ℝ) (p : Bool) (fuel : ℕ)
    (s : DSState n) :
    dsRun w c p (fuel + 1) s =
      if dsConverged c (dsPass w c p s) then dsPass w c p s
      else dsRun w c p fuel (dsPass w c p s) := rfl

theorem dsRun_count {n : ℕ} (w : Vec n) (c : ℝ) (p : Bool) :
    ∀ (fuel : ℕ) (s : DSState n),
      (dsRun w c p fuel s).count ≤ s.count + fuel := by
  intro fuel
  induction fuel with
  | zero =>
    intro s
    exact Nat.le_refl _
  | succ k ih =>
    intro s
    rw [dsRun_succ]
    by_cases hconv : dsConverged c (dsPass w c p s)
    · rw [if_pos hconv, dsPass_count]
      omega
    · rw [if_neg hconv]
      have := ih (dsPass w c p s)
      rw [dsPass_count] at this
      omega

/-- Once every parameter component sits at or above an evaluation point `t`,
every later candidate has L1 norm at most the one at `t` (evaluation points
only move up, and the calibration curve is non-increasing). -/
theorem dsRun_L1_le {n : ℕ} (w : Vec n) (c : ℝ) (p : Bool) (t : ℝ)
    (ht : 0 ≤ t) :
    ∀ (fuel : ℕ) (s : DSState n), dsStateGE t s →
      l1norm s.coef ≤ dsL1At w p t →
      l1norm (dsRun w c p fuel s).coef ≤ dsL1At w p t := by
  intro fuel
  induction fuel with
  | zero =>
    intro s _ hcoef
    exact hcoef
  | succ k ih =>
    intro s hge hcoef
    rw [dsRun_succ]
    have hcoef' : l1norm (dsPass w c p s).coef ≤ dsL1At w p t := by
      rw [dsPass_coef]
      exact dsL1At_anti w p t s.current ht hge.1
    by_cases hconv : dsConverged c (dsPass w c p s)
    · rw [if_pos hconv]
      exact hcoef'
    · rw [if_neg hconv]
      exact ih (dsPass w c p s) (dsPass_preserves_ge w c p s hge) hcoef'

/-- Once every parameter component sits at or below an evaluation point `t`
(and remains non-negative), every later candidate has L1 norm at least the one
at `t`. -/
theorem dsRun_L1_ge {n : ℕ} (w : Vec n) (c : ℝ) (p : Bool) (t : ℝ)
    (ht : 0 ≤ t) :
    ∀ (fuel : ℕ) (s : DSState n), dsStateLE t s → dsStateGE 0 s →
      dsL1At w p t ≤ l1norm s.coef →
      dsL1At w p t ≤ l1norm (dsRun w c p fuel s).coef := by
  intro fuel
  induction fuel with
  | zero =>
    intro s _ _ hcoef
    exact hcoef
  | succ k ih =>
    intro s hle hnn hcoef
    rw [dsRun_succ]
    have hcoef' : dsL1At w p t ≤ l1norm (dsPass w c p s).coef := by
      rw [dsPass_coef]
      exact dsL1At_anti w p s.current t hnn.1 hle.1
    by_cases hconv : dsConverged c (dsPass w c p s)
    · rw [if_pos hconv]
      exact hcoef'
    · rw [if_neg hconv]
      exact ih (dsPass w c p s) (dsPass_preserves_le w c p s hle)
        (dsPass_preserves_ge w c p s hnn) hcoef'

/-- The relation between two `_delta_search` runs with budgets `c₁ < c₂` while
their sign histories agree: identical parameter state, candidate and counter;
previous values taken at the same evaluation point with agreeing signs. -/
structure DSRel {n : ℕ} (w : Vec n) (p : Bool) (c₁ c₂ : ℝ)
    (s₁ s₂ : DSState n) : Prop where
  cur : s₁.current = s₂.current
  prev : s₁.previous = s₂.previous
  mn : s₁.min = s₂.min
  mx : s₁.max = s₂.max
  coefEq : s₁.coef = s₂.coef
  cnt : s₁.count = s₂.count
  pv : (s₁.previousVal = Option.none ∧ s₂.previousVal = Option.none) ∨
    (s₁.previousVal = Option.some (c₁ - dsL1At w p s₁.previous) ∧
      s₂.previousVal = Option.some (c₂ - dsL1At w p s₁.previous) ∧
      (c₁ - dsL1At w p s₁.previous ≤ 0 ↔ c₂ - dsL1At w p s₁.previous ≤ 0))
  geom : dsGeom s₁

/-- Paired-run lemma: from related states, the smaller budget's run returns a
candidate of no larger L1 norm.  The runs take identical bracket decisions
until their current values' signs first differ (or one stops); at that pivot
the smaller-budget run is walled at or above the pivot point and the larger at
or below it, and the calibration curve is non-increasing. -/
theorem dsRun_mono_rel {n : ℕ} (w : Vec n) (p : Bool) (c₁ c₂ : ℝ)
    (hc : c₁ < c₂) :
    ∀ (fuel : ℕ) (s₁ s₂ : DSState n), DSRel w p c₁ c₂ s₁ s₂ →
      l1norm (dsRun w c₁ p fuel s₁).coef ≤
        l1norm (dsRun w c₂ p fuel s₂).coef := by
  intro fuel
  induction fuel with
  | zero =>
    intro s₁ s₂ rel
    show l1norm s₁.coef ≤ l1norm s₂.coef
    rw [rel.coefEq]
  | succ k ih =>
    intro s₁ s₂ rel
    have ht0 : 0 ≤ s₁.current := le_trans rel.geom.1 rel.geom.2.1
    have hgeom₂ : dsGeom s₂ := by
      have hg := rel.geom
      unfold dsGeom at hg ⊢
      rw [← rel.cur, ← rel.prev, ← rel.mn, ← rel.mx]
      exact hg
    have hpv₁ : s₁.previousVal = Option.none ∨
        s₁.previousVal = Option.some (c₁ - dsL1At w p s₁.previous) := by
      rcases rel.pv with ⟨h, _⟩ | ⟨h, _, _⟩
      · exact Or.inl h
      · exact Or.inr h
    have hpv₂ : s₂.previousVal = Option.none ∨
        s₂.previousVal = Option.some (c₂ - dsL1At w p s₂.previous) := by
      rcases rel.pv with ⟨_, h⟩ | ⟨_, h, _⟩
      · exact Or.inl h
      · refine Or.inr ?_
        rw [← rel.prev]
        exact h
    have hl1₁ : l1norm (dsPass w c₁ p s₁).coef = dsL1At w p s₁.current := by
      rw [dsPass_coef]
      rfl
    have hl1₂ : l1norm (dsPass w c₂ p s₂).coef = dsL1At w p s₁.current := by
      rw [dsPass_coef, ← rel.cur]
      rfl
    have hcoef_eq : (dsPass w c₁ p s₁).coef = (dsPass w c₂ p s₂).coef := by
      rw [dsPass_coef, dsPass_coef, rel.cur]
    rw [dsRun_succ, dsRun_succ]
    by_cases hv₁ : c₁ - dsL1At w p s₁.current ≤ 0
    · -- run 1 evaluates at or above the pivot from now on
      have hge' : dsStateGE s₁.current (dsPass w c₁ p s₁) :=
        dsPass_pivot_ge w c₁ p s₁ rel.geom hpv₁ hv₁
      by_cases hv₂ : c₂ - dsL1At w p s₁.current ≤ 0
      · -- same sign: identical bracket decisions
        have hsign : (c₁ - dsL1At w p s₁.current ≤ 0) ↔
            (c₂ - dsL1At w p s₁.current ≤ 0) := iff_of_true hv₁ hv₂
        have hbeq : binSearch s₁.current s₁.previous
            (c₁ - dsL1At w p s₁.current) s₁.previousVal s₁.min s₁.max =
            binSearch s₂.current s₂.previous
            (c₂ - dsL1At w p s₂.current) s₂.previousVal s₂.min s₂.max := by
          rw [← rel.cur, ← rel.prev, ← rel.mn, ← rel.mx]
          refine binSearch_congr _ _ _ _ _ _ _ _ hsign ?_
          rcases rel.pv with ⟨h1, h2⟩ | ⟨h1, h2, hiff⟩
          · exact Or.inl ⟨h1, h2⟩
          · exact Or.inr ⟨_, _, h1, h2, hiff⟩
        have hcur' : (dsPass w c₁ p s₁).current =
            (dsPass w c₂ p s₂).current := by
          rw [dsPass_current, dsPass_current, hbeq]
        have hmin' : (dsPass w c₁ p s₁).min = (dsPass w c₂ p s₂).min := by
          rw [dsPass_min, dsPass_min, hbeq]
        have hmax' : (dsPass w c₁ p s₁).max = (dsPass w c₂ p s₂).max := by
          rw [dsPass_max, dsPass_max, hbeq]
        have hprev'' : (dsPass w c₁ p s₁).previous =
            (dsPass w c₂ p s₂).previous := by
          rw [dsPass_previous, dsPass_previous, rel.cur]
        have hcnt' : (dsPass w c₁ p s₁).count = (dsPass w c₂ p s₂).count := by
          rw [dsPass_count, dsPass_count, rel.cnt]
        by_cases hcv₁ : dsConverged c₁ (dsPass w c₁ p s₁) <;>
          by_cases hcv₂ : dsConverged c₂ (dsPass w c₂ p s₂)
        · rw [if_pos hcv₁, if_pos hcv₂]
          exact le_of_eq (congrArg l1norm hcoef_eq)
        · -- run 1 stopped on tolerance (the shared exits would stop run 2 too),
          -- but then run 2's value is within tolerance as well: impossible
          exfalso
          apply hcv₂
          unfold dsConverged at hcv₁ ⊢
          rcases hcv₁ with h | h | h
          · left
            rw [hl1₂]
            rw [hl1₁] at h
            rw [abs_of_nonpos hv₂, abs_of_nonpos hv₁] at *
            linarith
          · right
            left
            rw [← hmax', ← hmin']
            exact h
          · right
            right
            rw [← hcnt']
            exact h
        · -- run 2 stopped, run 1 continues: run 1 stays at or above the pivot
          rw [if_neg hcv₁, if_pos hcv₂]
          calc l1norm (dsRun w c₁ p k (dsPass w c₁ p s₁)).coef
              ≤ dsL1At w p s₁.current :=
            dsRun_L1_le w c₁ p s₁.current ht0 k _ hge' (le_of_eq hl1₁)
          _ = l1norm (dsPass w c₂ p s₂).coef := hl1₂.symm
        · -- neither stopped: recurse with the relation re-established
          rw [if_neg hcv₁, if_neg hcv₂]
          apply ih
          refine ⟨hcur', hprev'', hmin', hmax', hcoef_eq, hcnt', ?_,
            dsPass_geom w c₁ p s₁ rel.geom hpv₁⟩
          right
          refine ⟨?_, ?_, ?_⟩
          · rw [dsPass_previousVal, dsPass_previous]
          · rw [dsPass_previousVal, dsPass_previous, rel.cur]
          · rw [dsPass_previous]
            exact hsign
      · -- pivot: run 1 walled above, run 2 walled below
        have hv₂' : 0 < c₂ - dsL1At w p s₂.current := by
          rw [← rel.cur]
          exact lt_of_not_le hv₂
        have hle' := dsPass_pivot_le w c₂ p s₂ hgeom₂ hpv₂ hv₂'
        have hle'' : dsStateLE s₁.current (dsPass w c₂ p s₂) := by
          rw [rel.cur]
          exact hle'.1
        have h₂ : ∀ (hcv : ¬ dsConverged c₂ (dsPass w c₂ p s₂)),
            dsL1At w p s₁.current ≤
              l1norm (dsRun w c₂ p k (dsPass w c₂ p s₂)).coef := fun _ =>
          dsRun_L1_ge w c₂ p s₁.current ht0 k _ hle'' hle'.2
            (le_of_eq hl1₂.symm)
        by_cases hcv₁ : dsConverged c₁ (dsPass w c₁ p s₁) <;>
          by_cases hcv₂ : dsConverged c₂ (dsPass w c₂ p s₂)
        · rw [if_pos hcv₁, if_pos hcv₂]
          exact le_of_eq (congrArg l1norm hcoef_eq)
        · rw [if_pos hcv₁, if_neg hcv₂]
          calc l1norm (dsPass w c₁ p s₁).coef = dsL1At w p s₁.current := hl1₁
          _ ≤ _ := h₂ hcv₂
        · rw [if_neg hcv₁, if_pos hcv₂]
          calc l1norm (dsRun w c₁ p k (dsPass w c₁ p s₁)).coef
              ≤ dsL1At w p s₁.current :=
            dsRun_L1_le w c₁ p s₁.current ht0 k _ hge' (le_of_eq hl1₁)
          _ = l1norm (dsPass w c₂ p s₂).coef := hl1₂.symm
        · rw [if_neg hcv₁, if_neg hcv₂]
          calc l1norm (dsRun w c₁ p k (dsPass w c₁ p s₁)).coef
              ≤ dsL1At w p s₁.current :=
            dsRun_L1_le w c₁ p s₁.current ht0 k _ hge' (le_of_eq hl1₁)
          _ ≤ _ := h₂ hcv₂
    · -- run 1's value positive, hence run 2's as well: same sign
      have hv₂ : ¬ (c₂ - dsL1At w p s₁.current ≤ 0) := fun h =>
        hv₁ (by linarith)
      have hv₂' : 0 < c₂ - dsL1At w p s₂.current := by
        rw [← rel.cur]
        exact lt_of_not_le hv₂
      have hle' := dsPass_pivot_le w c₂ p s₂ hgeom₂ hpv₂ hv₂'
      have hle'' : dsStateLE s₁.current (dsPass w c₂ p s₂) := by
        rw [rel.cur]
        exact hle'.1
      have hsign : (c₁ - dsL1At w p s₁.current ≤ 0) ↔
          (c₂ - dsL1At w p s₁.current ≤ 0) := iff_of_false hv₁ hv₂
      have hbeq : binSearch s₁.current s₁.previous
          (c₁ - dsL1At w p s₁.current) s₁.previousVal s₁.min s₁.max =
          binSearch s₂.current s₂.previous
          (c₂ - dsL1At w p s₂.current) s₂.previousVal s₂.min s₂.max := by
        rw [← rel.cur, ← rel.prev, ← rel.mn, ← rel.mx]
        refine binSearch_congr _ _ _ _ _ _ _ _ hsign ?_
        rcases rel.pv with ⟨h1, h2⟩ | ⟨h1, h2, hiff⟩
        · exact Or.inl ⟨h1, h2⟩
        · exact Or.inr ⟨_, _, h1, h2, hiff⟩
      have hcur' : (dsPass w c₁ p s₁).current = (dsPass w c₂ p s₂).current := by
        rw [dsPass_current, dsPass_current, hbeq]
      have hmin' : (dsPass w c₁ p s₁).min = (dsPass w c₂ p s₂).min := by
        rw [dsPass_min, dsPass_min, hbeq]
      have hmax' : (dsPass w c₁ p s₁).max = (dsPass w c₂ p s₂).max := by
        rw [dsPass_max, dsPass_max, hbeq]
      have hprev'' : (dsPass w c₁ p s₁).previous =
          (dsPass w c₂ p s₂).previous := by
        rw [dsPass_previous, dsPass_previous, rel.cur]
      have hcnt' : (dsPass w c₁ p s₁).count = (dsPass w c₂ p s₂).count := by
        rw [dsPass_count, dsPass_count, rel.cnt]
      by_cases hcv₁ : dsConverged c₁ (dsPass w c₁ p s₁) <;>
        by_cases hcv₂ : dsConverged c₂ (dsPass w c₂ p s₂)
      · rw [if_pos hcv₁, if_pos hcv₂]
        exact le_of_eq (congrArg l1norm hcoef_eq)
      · -- run 1 stopped, run 2 continues: run 2 stays at or below the pivot
        rw [if_pos hcv₁, if_neg hcv₂]
        calc l1norm (dsPass w c₁ p s₁).coef = dsL1At w p s₁.current := hl1₁
        _ ≤ l1norm (dsRun w c₂ p k (dsPass w c₂ p s₂)).coef :=
          dsRun_L1_ge w c₂ p s₁.current ht0 k _ hle'' hle'.2
            (le_of_eq hl1₂.symm)
      · -- run 2 stopped on tolerance while run 1 did not: impossible
        exfalso
        apply hcv₁
        unfold dsConverged at hcv₂ ⊢
        rcases hcv₂ with h | h | h
        · left
          rw [hl1₁]
          rw [hl1₂] at h
          have habs₁ : |c₁ - dsL1At w p s₁.current| =
              c₁ - dsL1At w p s₁.current := abs_of_pos (lt_of_not_le hv₁)
          have habs₂ : |c₂ - dsL1At w p s₁.current| =
              c₂ - dsL1At w p s₁.current := abs_of_pos (lt_of_not_le hv₂)
          rw [habs₁]
          rw [habs₂] at h
          linarith
        · right
          left
          rw [hmax', hmin']
          exact h
        · right
          right
          rw [hcnt']
          exact h
      · rw [if_neg hcv₁, if_neg hcv₂]
        apply ih
        refine ⟨hcur', hprev'', hmin', hmax', hcoef_eq, hcnt', ?_,
          dsPass_geom w c₁ p s₁ rel.geom hpv₁⟩
        right
        refine ⟨?_, ?_, ?_⟩
        · rw [dsPass_previousVal, dsPass_previous]
        · rw [dsPass_previousVal, dsPass_previous, rel.cur]
        · rw [dsPass_previous]
          exact hsign

/-- Claim C8: for a fixed input weight vector, `_delta_search` at a strictly
larger target L1 budget returns a vector of no smaller L1 norm (so a strictly
increasing sequence of budgets gives a non-decreasing sequence of result
norms), and every invocation executes at most 50 binary-search passes. -/
theorem C8_delta_search_monotone_terminates (n : ℕ) (w : Vec n) (p : Bool)
    (c₁ c₂ : ℝ) (hc : c₁ < c₂) :
    l1norm (deltaSearch w c₁ p) ≤ l1norm (deltaSearch w c₂ p) ∧
    deltaSearchIters w c₁ p ≤ 50 ∧ deltaSearchIters w c₂ p ≤ 50 := by
  have hrel : DSRel ((l2norm w)⁻¹ • w) p c₁ c₂ (dsInit n) (dsInit n) := by
    refine ⟨rfl, rfl, rfl, rfl, rfl, rfl, Or.inl ⟨rfl, rfl⟩, ?_⟩
    unfold dsGeom dsInit
    norm_num
  refine ⟨dsRun_mono_rel _ p c₁ c₂ hc 50 _ _ hrel, ?_, ?_⟩
  · have := dsRun_count ((l2norm w)⁻¹ • w) c₁ p 50 (dsInit n)
    simpa [deltaSearchIters, dsInit] using this
  · have := dsRun_count ((l2norm w)⁻¹ • w) c₂ p 50 (dsInit n)
    simpa [deltaSearchIters, dsInit] using this

/-- Claim C8 witness: concrete weight vector `(3)` and budgets `1 < 2`. -/
theorem C8_witness :
    (1 : ℝ) < 2 ∧
    (l1norm (deltaSearch (fun _ : Fin 1 => (3 : ℝ)) 1 false) ≤
        l1norm (deltaSearch (fun _ : Fin 1 => (3 : ℝ)) 2 false) ∧
      deltaSearchIters (fun _ : Fin 1 => (3 : ℝ)) 1 false ≤ 50 ∧
      deltaSearchIters (fun _ : Fin 1 => (3 : ℝ)) 2 false ≤ 50) :=
  ⟨by norm_num,
    C8_delta_search_monotone_terminates 1 _ false 1 2 (by norm_num)⟩
